import Mathlib

/-!
Shallow embedding of the `nmod` tool (github.com/jadekler/nmod).

Modelling conventions:
* A filesystem path is a `List String` of segments; the absolute root `/`
  is `[]`.  The only files the tool ever inspects are `go.mod` manifests,
  so the filesystem is a tree of directories, each optionally holding the
  text content of its `go.mod`.
* `filepath.Abs` on a clean relative path run from working directory `cwd`
  is `cwd ++ path`; on an absolute path it is the identity.  The Go code
  distinguishes the two spellings of a path (relative from `filepath.Walk`,
  absolute from the upward search), so paths as the Go code manipulates
  them are modelled by `GoPath`.
* `os.Stat` of `dir/go.mod` succeeds exactly when `dir` exists in the tree
  and holds a manifest; a missing directory gives `IsNotExist`, which the
  source treats the same as a missing manifest.  I/O errors other than
  not-found are not modelled.
* Functions that the source makes return `error` are modelled with
  `Except String`; `.error` models printing the message and exiting 1
  before any module output is produced (all printing in the source happens
  after every fallible step of the respective function has succeeded).
-/

/-- A directory: the content of its `go.mod` manifest, when present, and
its named subdirectories. -/
inductive DirTree where
  | node (goMod : Option String) (children : List (String × DirTree))
deriving Repr

/-- The manifest content recorded at a directory node. -/
def DirTree.goMod : DirTree → Option String
  | .node g _ => g

/-- The subdirectories of a directory node. -/
def DirTree.children : DirTree → List (String × DirTree)
  | .node _ cs => cs

/-- Follow a segment path down the tree; `none` when the directory does
not exist. -/
def DirTree.lookup : DirTree → List String → Option DirTree
  | t, [] => some t
  | t, n :: rest =>
    match t.children.find? (fun c => c.1 = n) with
    | some c => c.2.lookup rest
    | none => none

/-- Content of the `go.mod` directly inside the directory at absolute path
`p`, when both the directory and the manifest exist. -/
def goModContentAt (t : DirTree) (p : List String) : Option String :=
  (t.lookup p).bind DirTree.goMod

/-- `os.Stat(p ++ "/go.mod")` succeeds. -/
def goModExists (t : DirTree) (p : List String) : Bool :=
  (goModContentAt t p).isSome

/-- The subtree rooted at `p`; walking a nonexistent directory is modelled
as walking an empty one. -/
def subtreeAt (t : DirTree) (p : List String) : DirTree :=
  (t.lookup p).getD (.node none [])

/-- A path as the Go source spells it: relative (resolved against the
working directory) or absolute. -/
inductive GoPath where
  | rel (segs : List String)
  | abs (segs : List String)
deriving DecidableEq, Repr

/-- `filepath.Abs` run from working directory `cwd`. -/
def filepathAbs (cwd : List String) : GoPath → List String
  | .rel s => cwd ++ s
  | .abs s => s

/-- `filepath.Dir`: drop the final segment, keeping the spelling.
(`Dir("go.mod") = "."`, i.e. `rel []`.) -/
def goPathDir : GoPath → GoPath
  | .rel s => .rel s.dropLast
  | .abs s => .abs s.dropLast

/-- Render an absolute segment path the way the tool prints it. -/
def pathToString (p : List String) : String :=
  "/" ++ String.intercalate "/" p

/-! ### Manifest reader: `readModule` and the regex `module (.+)` -/

/-- Attempt of the Go regex `module (.+)` at the current position: the
literal seven characters `module ` (keyword plus exactly one space) must
be a prefix, and at least one further character other than a newline must
follow; the greedy `.+` then captures up to (not including) the next
newline or the end of input. -/
def moduleMatchAt (cs : List Char) : Option (List Char) :=
  if ("module ".toList).isPrefixOf cs then
    let cap := (cs.drop 7).takeWhile (fun c => c ≠ '\n')
    if cap = [] then none else some cap
  else none

/-- Leftmost match of `module (.+)`: try each position left to right and
return the first capture (`FindAllStringSubmatch(..., -1)[0][1]`). -/
def findFirstModuleMatch : List Char → Option (List Char)
  | [] => none
  | c :: rest =>
    match moduleMatchAt (c :: rest) with
    | some cap => some cap
    | none => findFirstModuleMatch rest

/-- The capture group of the first match of `moduleRegexp` in the file
content, when any match exists. -/
def extractModuleName (s : String) : Option String :=
  (findFirstModuleMatch s.toList).map fun cs => String.mk cs

/-- Content of the file at absolute path `f`.  The model records only
`go.mod` manifests, so any other file name reads as absent. -/
def fileAt (t : DirTree) (f : List String) : Option String :=
  match f.getLast? with
  | some "go.mod" => goModContentAt t f.dropLast
  | _ => none

/-- Error message of `readModule` for a manifest with no declaration. -/
def noDeclMsg (f : List String) : String :=
  pathToString f ++ " doesn't seem to have a module declaration"

/-- `readModule`: read the file, return the first regex capture, failing
when the file is unreadable or the keyword never matches. -/
def readModule (t : DirTree) (f : List String) : Except String String :=
  match fileAt t f with
  | none => .error (pathToString f ++ ": no such file")
  | some content =>
    match extractModuleName content with
    | none => .error (noDeclMsg f)
    | some m => .ok m

/-! ### Upward search: `searchUpwardsForModule` -/

/-- The body of `searchUpwardsForModule`'s loop, resolved: at absolute
directory `cur`, stat `cur/go.mod`; on success return the manifest path;
otherwise, if `cur` is the filesystem root the loop condition
`absCurDir != "/"` fails and the search reports absence; otherwise append
`/..` and re-resolve, i.e. continue from the parent. -/
def upFrom (t : DirTree) (cur : List String) : Option (List String) :=
  if goModExists t cur then some (cur ++ ["go.mod"])
  else
    match h : cur with
    | [] => none
    | x :: xs => upFrom t ((x :: xs).dropLast)
termination_by cur.length
decreasing_by
  subst h
  simp [List.length_dropLast]

/-- `searchUpwardsForModule(startDir)`: resolve the start to an absolute
path and run the upward loop.  `none` models the source's `("", nil)`
not-found outcome. -/
def searchUpwardsForModule (t : DirTree) (cwd : List String) (startDir : GoPath) :
    Option (List String) :=
  upFrom t (filepathAbs cwd startDir)

/-- The same loop with an explicit iteration budget: `none` means the
budget was exhausted with the loop still running, `some r` that the loop
finished with result `r` within the budget. -/
def upLoopFuel (t : DirTree) : List String → Nat → Option (Option (List String))
  | _, 0 => none
  | cur, fuel + 1 =>
    if goModExists t cur then some (some (cur ++ ["go.mod"]))
    else
      match cur with
      | [] => some none
      | _ :: _ => upLoopFuel t cur.dropLast fuel

deriving instance DecidableEq for Except

/-! ### Downward search: `filepath.Walk` collecting `go.mod` files -/

mutual
/-- Walk the tree rooted here, collecting the relative path of every file
named exactly `go.mod`. -/
def walkFiles : DirTree → List (List String)
  | .node g cs => (if g.isSome then [(["go.mod"] : List String)] else []) ++ walkFilesL cs

/-- Walk each subdirectory in turn. -/
def walkFilesL : List (String × DirTree) → List (List String)
  | [] => []
  | (n, t) :: rest => (walkFiles t).map (fun f => n :: f) ++ walkFilesL rest
end

/-- `modFilesRecursivelyDown`: walk `.` and deduplicate the collected
`go.mod` paths. -/
def modFilesRecursivelyDown (t : DirTree) (cwd : List String) : List (List String) :=
  (walkFiles (subtreeAt t cwd)).dedup

/-! ### The `modules` command -/

/-- Error message of `modules` for a directory with no manifest above. -/
def noModAboveMsg (d : List String) : String :=
  pathToString d ++ " doesn't have a go.mod, nor do any of the directories above it"

/-- The first loop of `modules`: make each directory argument absolute,
search upward from it, and fail hard when no manifest is found in it or
any ancestor; otherwise collect the manifest paths. -/
def collectModFiles (t : DirTree) (cwd : List String) :
    List GoPath → Except String (List (List String))
  | [] => .ok []
  | d :: rest =>
    let absD := filepathAbs cwd d
    match upFrom t absD with
    | none => .error (noModAboveMsg absD)
    | some m => (collectModFiles t cwd rest).map fun ms => m :: ms

/-- The second loop of `modules`: read each collected manifest, stopping
at the first failure. -/
def readModulesList (t : DirTree) : List (List String) → Except String (List String)
  | [] => .ok []
  | f :: rest =>
    match readModule t f with
    | .error e => .error e
    | .ok m => (readModulesList t rest).map fun ms => m :: ms

/-- `modules(dirs)`: collect the manifests above the argument directories,
deduplicate them, read each one's module name, deduplicate the names, and
print them (the returned list). -/
def modules (t : DirTree) (cwd : List String) (dirArgs : List GoPath) :
    Except String (List String) :=
  match collectModFiles t cwd dirArgs with
  | .error e => .error e
  | .ok modFiles =>
    match readModulesList t modFiles.dedup with
    | .error e => .error e
    | .ok names => .ok names.dedup

/-- `nmod "modules" []`: gather the manifests found below (relative
spelling) and, when present, above (absolute spelling) the working
directory, take each one's containing directory, and run `modules` on
those directories. -/
def nmodModulesNoArgs (t : DirTree) (cwd : List String) : Except String (List String) :=
  let downFiles := (modFilesRecursivelyDown t cwd).map GoPath.rel
  let modFiles :=
    match searchUpwardsForModule t cwd (.rel []) with
    | some f => downFiles ++ [GoPath.abs f]
    | none => downFiles
  modules t cwd (modFiles.map goPathDir)

/-! ### The `rootdirs` and `dirs` commands -/

/-- `rootdirs(args)`: each argument (a module name, used directly as a
path) is searched upward from; the found manifest locations are
deduplicated — including the empty not-found location, which is not
treated as an error — and each one's directory is printed
(`filepath.Dir("") = "."`). -/
def rootdirs (t : DirTree) (cwd : List String) (args : List GoPath) : List String :=
  ((args.map fun d => searchUpwardsForModule t cwd d).dedup).map fun
    | some f => pathToString f.dropLast
    | none => "."

/-- `dirs(args)`: unimplemented in the source (`TODO(deklerk): implement`
— the body is `return nil`), so it prints nothing and reports success. -/
def dirs (args : List String) : Except String (List String) := .ok []

/-- `allModules` (the no-argument `modules` path of an earlier snapshot):
the upward manifest, when present, under its absolute spelling, plus every
manifest found by the downward walk under its relative spelling,
deduplicated by spelling; each entry is then read (relative spellings
resolve against the working directory) and the names deduplicated. -/
def allModules (t : DirTree) (cwd : List String) : Except String (List String) :=
  let upList : List GoPath :=
    match searchUpwardsForModule t cwd (.rel []) with
    | some f => [.abs f]
    | none => []
  let modFiles := (upList ++ (walkFiles (subtreeAt t cwd)).map GoPath.rel).dedup
  match readModulesList t (modFiles.map (filepathAbs cwd)) with
  | .error e => .error e
  | .ok names => .ok names.dedup

/-- The module name recorded in the manifest file at absolute path `f`,
when that file exists and has a declaration. -/
def nameAtFile (t : DirTree) (f : List String) : Option String :=
  (fileAt t f).bind extractModuleName

/-- `readModule` succeeds. -/
def readOk (t : DirTree) (f : List String) : Bool :=
  match readModule t f with
  | .ok _ => true
  | .error _ => false

mutual
/-- Well-formedness of a modelled filesystem: no directory has two
children with the same name.  Every real directory tree satisfies this;
`DirTree.lookup` (which takes the first matching child) and the exhaustive
walk agree only on such trees. -/
def nodupNames : DirTree → Bool
  | .node _ cs => decide ((cs.map Prod.fst).Nodup) && nodupNamesL cs

/-- `nodupNames` for each subtree of a child list. -/
def nodupNamesL : List (String × DirTree) → Bool
  | [] => true
  | (_, t) :: rest => nodupNames t && nodupNamesL rest
end

/-! ### Concrete worlds used to instantiate the theorems -/

/-- `/repo/go.mod` declares `root.example`; `/repo/a/b/go.mod` declares
`child.example`; `/repo/sib` is a manifest-free sibling directory. -/
def exampleTree : DirTree :=
  .node none
    [("repo", .node (some "module root.example\n")
      [("a", .node none [("b", .node (some "module child.example\n") [])]),
       ("sib", .node none [])])]

/-- A filesystem with no manifest anywhere: only `/missing-tree`. -/
def bareTree : DirTree :=
  .node none [("missing-tree", .node none [])]

/-- `/repo/go.mod` exists but contains no module declaration; `/repo/sub/go.mod`
declares `ok.example`. -/
def noDeclTree : DirTree :=
  .node none
    [("repo", .node (some "nothing to see here\n")
      [("sub", .node (some "module ok.example\n") [])])]

/-! ### Helper lemmas about the upward search -/

theorem upFrom_of_exists (t : DirTree) (d : List String) (h : goModExists t d = true) :
    upFrom t d = some (d ++ ["go.mod"]) := by
  rw [upFrom.eq_def]
  simp [h]

theorem upLoopFuel_succ (t : DirTree) (cur : List String) (fuel : Nat) :
    upLoopFuel t cur (fuel + 1) =
      if goModExists t cur then some (some (cur ++ ["go.mod"]))
      else
        match cur with
        | [] => some none
        | _ :: _ => upLoopFuel t cur.dropLast fuel := rfl

theorem upFrom_none_root (t : DirTree) (h : goModExists t [] = false) :
    upFrom t [] = none := by
  rw [upFrom]
  simp [h]

theorem upFrom_step (t : DirTree) (x : String) (xs : List String)
    (h : goModExists t (x :: xs) = false) :
    upFrom t (x :: xs) = upFrom t (x :: xs).dropLast := by
  rw [upFrom]
  simp [h]

theorem upFrom_shape (t : DirTree) (d : List String) :
    ∀ f, upFrom t d = some f → ∃ q, f = q ++ ["go.mod"] ∧ goModExists t q = true := by
  induction d using upFrom.induct t with
  | case1 x hx =>
    intro f hf
    rw [upFrom_of_exists t x hx] at hf
    exact ⟨x, (Option.some_injective _ hf).symm, hx⟩
  | case2 h =>
    intro f hf
    rw [upFrom_none_root t (by simpa using h)] at hf
    cases hf
  | case3 x xs h ih =>
    intro f hf
    rw [upFrom_step t x xs (by simpa using h)] at hf
    exact ih f hf

theorem upFrom_none_of_absent (t : DirTree) (d : List String) :
    (∀ k, k ≤ d.length → goModExists t (d.take k) = false) → upFrom t d = none := by
  induction d using upFrom.induct t with
  | case1 x hx =>
    intro habs
    have := habs x.length (le_refl _)
    rw [List.take_length] at this
    rw [this] at hx
    cases hx
  | case2 h =>
    intro _
    exact upFrom_none_root t (by simpa using h)
  | case3 x xs h ih =>
    intro habs
    rw [upFrom_step t x xs (by simpa using h)]
    refine ih ?_
    intro k hk
    have hd : (x :: xs).dropLast.take k = (x :: xs).take k := by
      rw [List.dropLast_eq_take, List.take_take]
      congr 1
      simp [List.length_dropLast] at hk
      simp
      omega
    rw [hd]
    exact habs k (by simp [List.length_dropLast] at hk ⊢; omega)

theorem upLoopFuel_complete (t : DirTree) (d : List String) :
    upLoopFuel t d (d.length + 1) = some (upFrom t d) := by
  induction d using upFrom.induct t with
  | case1 x hx =>
    rw [upFrom_of_exists t x hx, upLoopFuel_succ]
    simp [hx]
  | case2 h =>
    have hb : goModExists t [] = false := by simpa using h
    rw [upFrom_none_root t hb, upLoopFuel_succ]
    simp [hb]
  | case3 x xs h ih =>
    have hb : goModExists t (x :: xs) = false := by simpa using h
    rw [upFrom_step t x xs hb]
    have hl : (x :: xs).length + 1 = xs.length + 1 + 1 := by simp
    rw [hl, upLoopFuel_succ]
    simp only [hb, Bool.false_eq_true, if_false]
    have hfe : (x :: xs).dropLast.length + 1 = xs.length + 1 := by
      simp [List.length_dropLast]
    have hgoal : upLoopFuel t (x :: xs).dropLast (xs.length + 1) =
        some (upFrom t (x :: xs).dropLast) := by
      rw [← hfe]
      exact ih
    exact hgoal

theorem upFrom_eq_fuel (t : DirTree) (d : List String) :
    upFrom t d = (upLoopFuel t d (d.length + 1)).getD none := by
  rw [upLoopFuel_complete]
  rfl

/-! ### Claims C4 and C8: upward search -/

/-- C4: upward search from a directory that itself holds a manifest returns
that directory's own manifest immediately, whatever any ancestor holds
(closest wins); and upward search from a directory none of whose ancestors
(itself and every prefix up to the filesystem root) holds a manifest
returns absence — the source's `("", nil)`, modelled `none` — rather than
an error. -/
theorem upward_closest_wins_and_absence (t : DirTree) (d : List String) :
    (goModExists t d = true → upFrom t d = some (d ++ ["go.mod"])) ∧
    ((∀ k, k ≤ d.length → goModExists t (d.take k) = false) → upFrom t d = none) :=
  ⟨upFrom_of_exists t d, upFrom_none_of_absent t d⟩

theorem upward_closest_wins_and_absence_witness :
    (goModExists exampleTree ["repo", "a", "b"] = true ∧
      upFrom exampleTree ["repo", "a", "b"] = some (["repo", "a", "b"] ++ ["go.mod"])) ∧
    ((∀ k, k ≤ (["missing-tree"] : List String).length →
        goModExists bareTree ((["missing-tree"] : List String).take k) = false) ∧
      upFrom bareTree ["missing-tree"] = none) := by
  refine ⟨⟨by decide, ?_⟩, ⟨by decide, ?_⟩⟩
  · exact (upward_closest_wins_and_absence exampleTree ["repo", "a", "b"]).1 (by decide)
  · exact (upward_closest_wins_and_absence bareTree ["missing-tree"]).2 (by decide)

/-- C8: the upward-search loop terminates for every starting directory:
with an iteration budget of one more than the starting directory's depth
the loop always finishes — reaching a manifest or the filesystem root —
and its final result is exactly the search's result. -/
theorem upward_search_terminates (t : DirTree) (start : List String) :
    upLoopFuel t start (start.length + 1) = some (upFrom t start) :=
  upLoopFuel_complete t start

/-! ### Reader lemmas and claims C3, C9 -/

theorem takeWhile_line (name rest : List Char) (h : '\n' ∉ name) :
    (name ++ '\n' :: rest).takeWhile (fun c => c ≠ '\n') = name := by
  induction name with
  | nil => simp
  | cons c cs ih =>
    simp only [List.mem_cons, not_or] at h
    have hc : ¬c = '\n' := fun hcc => h.1 hcc.symm
    simp [List.takeWhile_cons, hc]
    simpa using ih h.2

theorem moduleMatchAt_form (name rest : List Char) (hne : name ≠ []) (hnl : '\n' ∉ name) :
    moduleMatchAt ("module ".toList ++ (name ++ '\n' :: rest)) = some name := by
  have hp : ("module ".toList).isPrefixOf ("module ".toList ++ (name ++ '\n' :: rest)) = true := by
    rw [List.isPrefixOf_iff_prefix]
    exact List.prefix_append _ _
  have hdrop : ("module ".toList ++ (name ++ '\n' :: rest)).drop 7 = name ++ '\n' :: rest := by
    have h7 : ("module ".toList).length = 7 := rfl
    rw [← h7, List.drop_left]
  simp only [moduleMatchAt, hp, if_true, hdrop, takeWhile_line name rest hnl]
  simp [hne]

theorem findFirst_of_matchAt (cs cap : List Char) (h : moduleMatchAt cs = some cap) :
    findFirstModuleMatch cs = some cap := by
  cases cs with
  | nil =>
    have hx : moduleMatchAt [] = none := rfl
    rw [hx] at h
    cases h
  | cons c rest =>
    rw [findFirstModuleMatch, h]

theorem findFirst_cons_none (c : Char) (rest : List Char)
    (h : moduleMatchAt (c :: rest) = none) :
    findFirstModuleMatch (c :: rest) = findFirstModuleMatch rest := by
  rw [findFirstModuleMatch, h]

theorem findFirst_append (pre name rest : List Char)
    (hpre : ∀ i, i < pre.length →
      moduleMatchAt ((pre ++ ("module ".toList ++ (name ++ '\n' :: rest))).drop i) = none)
    (hne : name ≠ []) (hnl : '\n' ∉ name) :
    findFirstModuleMatch (pre ++ ("module ".toList ++ (name ++ '\n' :: rest))) = some name := by
  induction pre with
  | nil =>
    simp only [List.nil_append]
    exact findFirst_of_matchAt _ _ (moduleMatchAt_form name rest hne hnl)
  | cons p ps ih =>
    have h0 := hpre 0 (by simp)
    rw [List.drop_zero, List.cons_append] at h0
    rw [List.cons_append, findFirst_cons_none p _ h0]
    refine ih ?_
    intro i hi
    have hs := hpre (i + 1) (by simp only [List.length_cons]; omega)
    rw [List.cons_append, List.drop_succ_cons] at hs
    exact hs

/-- C3 (amended): whenever the literal `module ` — the keyword followed by
exactly one space, not arbitrary whitespace — followed by at least one
non-newline character first occurs at a given position of the file,
`readModule`'s regex extraction returns exactly the text from after that
occurrence up to, and excluding, the next newline; trailing spaces are
retained (only the line ending is excluded), and any later occurrence is
ignored (the first match wins). -/
theorem readModuleName_first_occurrence (pre name rest : List Char)
    (hpre : ∀ i, i < pre.length →
      moduleMatchAt ((pre ++ ("module ".toList ++ (name ++ '\n' :: rest))).drop i) = none)
    (hne : name ≠ []) (hnl : '\n' ∉ name) :
    extractModuleName (String.mk (pre ++ ("module ".toList ++ (name ++ '\n' :: rest)))) =
      some (String.mk name) := by
  unfold extractModuleName
  have hl : (String.mk (pre ++ ("module ".toList ++ (name ++ '\n' :: rest)))).toList =
      pre ++ ("module ".toList ++ (name ++ '\n' :: rest)) := rfl
  rw [hl, findFirst_append pre name rest hpre hne hnl]
  rfl

theorem readModuleName_first_occurrence_witness :
    ((∀ i, i < ("x\n".toList : List Char).length →
        moduleMatchAt ((("x\n".toList : List Char) ++
          ("module ".toList ++ ("example.com/foo".toList ++ '\n' :: []))).drop i) = none) ∧
      ("example.com/foo".toList : List Char) ≠ [] ∧
      '\n' ∉ ("example.com/foo".toList : List Char)) ∧
    extractModuleName (String.mk (("x\n".toList : List Char) ++
        ("module ".toList ++ ("example.com/foo".toList ++ '\n' :: [])))) =
      some (String.mk "example.com/foo".toList) := by
  refine ⟨⟨by decide, by decide, by decide⟩, ?_⟩
  exact readModuleName_first_occurrence _ _ _ (by decide) (by decide) (by decide)

/-- C3 counterexample: a file whose declaration separates the keyword and
the name with a tab — keyword followed by whitespace — produces no match
at all, and a captured name keeps its trailing space (nothing is trimmed
beyond the line ending), so the claim's "followed by whitespace" and
"trimmed of trailing whitespace" both fail on the code. -/
theorem readModuleName_claim_cex :
    extractModuleName "module\tfoo\n" = none ∧
    extractModuleName "module foo \n" = some "foo " ∧
    ("foo " : String) ≠ "foo" := by
  refine ⟨?_, ?_, ?_⟩ <;> decide

/-- C9: the reader matches the substring `module ` at any position, not
only at a word boundary — a file reading `submodule foo` yields the name
`foo` from the match starting inside `submodule` — while a tab after the
keyword yields no match and hence the no-declaration error. -/
theorem reader_mid_word_match_and_tab_failure :
    readModule (DirTree.node (some "submodule foo\n") []) ["go.mod"] = .ok "foo" ∧
    readModule (DirTree.node (some "module\tfoo\n") []) ["go.mod"] =
      .error (noDeclMsg ["go.mod"]) := by
  refine ⟨?_, ?_⟩ <;> decide

/-! ### Lemmas about lookup, the walk, and well-formed trees -/

theorem DirTree.ind (motive : DirTree → Prop)
    (h : ∀ g cs, (∀ n t', (n, t') ∈ cs → motive t') → motive (.node g cs)) :
    ∀ t, motive t
  | .node g cs => h g cs fun n t' hmem => DirTree.ind motive h t'
termination_by t => sizeOf t
decreasing_by
  have h1 := List.sizeOf_lt_of_mem hmem
  simp only [Prod.mk.sizeOf_spec] at h1
  simp only [DirTree.node.sizeOf_spec]
  omega

theorem DirTree.lookup_append (t : DirTree) (p q : List String) :
    t.lookup (p ++ q) = (t.lookup p).bind fun s => s.lookup q := by
  induction p generalizing t with
  | nil => simp [DirTree.lookup]
  | cons n p' ih =>
    simp only [List.cons_append, DirTree.lookup]
    cases hf : t.children.find? (fun c => c.1 = n) with
    | none => rfl
    | some c => exact ih c.2

theorem goModExists_empty (q : List String) :
    goModExists (DirTree.node none []) q = false := by
  cases q <;>
    simp [goModExists, goModContentAt, DirTree.lookup, DirTree.goMod, DirTree.children,
      List.find?]

theorem goModContentAt_append (t : DirTree) (p q : List String) :
    goModContentAt t (p ++ q) = goModContentAt (subtreeAt t p) q := by
  unfold goModContentAt subtreeAt
  rw [DirTree.lookup_append]
  cases h : t.lookup p with
  | some s => simp
  | none =>
    cases q <;>
      simp [DirTree.lookup, DirTree.goMod, DirTree.children, List.find?]

theorem goModExists_append (t : DirTree) (p q : List String) :
    goModExists t (p ++ q) = goModExists (subtreeAt t p) q := by
  unfold goModExists
  rw [goModContentAt_append]

theorem nodupNamesL_mem (cs : List (String × DirTree)) (n : String) (t' : DirTree)
    (hl : nodupNamesL cs = true) (hmem : (n, t') ∈ cs) : nodupNames t' = true := by
  induction cs with
  | nil => cases hmem
  | cons c rest ih =>
    rw [show nodupNamesL (c :: rest) = (nodupNames c.2 && nodupNamesL rest) from by
      cases c; rfl] at hl
    simp only [Bool.and_eq_true] at hl
    rcases List.mem_cons.mp hmem with hh | ht
    · rw [← hh] at hl
      exact hl.1
    · exact ih hl.2 ht

theorem nodupNames_lookup (p : List String) : ∀ (t s : DirTree),
    nodupNames t = true → t.lookup p = some s → nodupNames s = true := by
  induction p with
  | nil =>
    intro t s ht hl
    cases hl
    exact ht
  | cons n p' ih =>
    intro t s ht hl
    cases t with
    | node g cs =>
      simp only [DirTree.lookup] at hl
      cases hf : (DirTree.node g cs).children.find? (fun c => c.1 = n) with
      | none => rw [hf] at hl; cases hl
      | some c =>
        rw [hf] at hl
        have hcm : c ∈ cs := List.mem_of_find?_eq_some hf
        have hnd : nodupNamesL cs = true := by
          have : nodupNames (.node g cs) = true := ht
          rw [show nodupNames (.node g cs) =
            (decide ((cs.map Prod.fst).Nodup) && nodupNamesL cs) from rfl] at this
          simp only [Bool.and_eq_true] at this
          exact this.2
        exact ih c.2 s (nodupNamesL_mem cs c.1 c.2 hnd (by simpa using hcm)) hl

theorem nodupNames_subtreeAt (t : DirTree) (p : List String)
    (h : nodupNames t = true) : nodupNames (subtreeAt t p) = true := by
  unfold subtreeAt
  cases hl : t.lookup p with
  | some s => exact nodupNames_lookup p t s h hl
  | none => rfl

theorem walkFilesL_mem (cs : List (String × DirTree)) (f : List String) :
    f ∈ walkFilesL cs ↔
      ∃ n t', (n, t') ∈ cs ∧ ∃ g', g' ∈ walkFiles t' ∧ f = n :: g' := by
  induction cs with
  | nil =>
    simp [walkFilesL]
  | cons c rest ih =>
    cases c with
    | mk n t' =>
      simp only [walkFilesL, List.mem_append, List.mem_map, ih, List.mem_cons]
      constructor
      · rintro (⟨g', hg', rfl⟩ | ⟨n2, t2, hm, g2, hg2, rfl⟩)
        · exact ⟨n, t', Or.inl rfl, g', hg', rfl⟩
        · exact ⟨n2, t2, Or.inr hm, g2, hg2, rfl⟩
      · rintro ⟨n2, t2, hm | hm, g2, hg2, rfl⟩
        · cases hm
          exact Or.inl ⟨g2, hg2, rfl⟩
        · exact Or.inr ⟨n2, t2, hm, g2, hg2, rfl⟩

theorem find?_of_nodup_names (cs : List (String × DirTree)) (n : String) (t' : DirTree)
    (hnd : (cs.map Prod.fst).Nodup) (hmem : (n, t') ∈ cs) :
    cs.find? (fun c => c.1 = n) = some (n, t') := by
  induction cs with
  | nil => cases hmem
  | cons c rest ih =>
    simp only [List.map_cons, List.nodup_cons] at hnd
    rcases List.mem_cons.mp hmem with hh | ht
    · rw [← hh]
      simp [List.find?]
    · have hne : ¬c.1 = n := by
        intro he
        exact hnd.1 (he ▸ (List.mem_map.mpr ⟨(n, t'), ht, rfl⟩))
      rw [List.find?]
      simp only [hne, decide_eq_false hne]
      exact ih hnd.2 ht

theorem walkFiles_sound : ∀ (t0 : DirTree), nodupNames t0 = true →
    ∀ f ∈ walkFiles t0, ∃ d, f = d ++ ["go.mod"] ∧ goModExists t0 d = true := by
  refine DirTree.ind _ ?_
  intro g cs ih hn f hf
  have hn2 : decide ((cs.map Prod.fst).Nodup) = true ∧ nodupNamesL cs = true := by
    have : nodupNames (.node g cs) = (decide ((cs.map Prod.fst).Nodup) && nodupNamesL cs) :=
      rfl
    rw [this] at hn
    simp only [Bool.and_eq_true] at hn
    exact hn
  rw [show walkFiles (.node g cs) =
      ((if g.isSome then [(["go.mod"] : List String)] else []) ++ walkFilesL cs) from rfl,
    List.mem_append] at hf
  rcases hf with hf | hf
  · refine ⟨[], ?_, ?_⟩
    · rcases g.isSome with _ | _ <;> simp_all
    · have hg : g.isSome = true := by
        by_contra hc
        simp only [Bool.not_eq_true] at hc
        rw [hc] at hf
        simp at hf
      simpa [goModExists, goModContentAt, DirTree.lookup, DirTree.goMod] using hg
  · obtain ⟨n, t', hmem, g', hg', rfl⟩ := (walkFilesL_mem cs f).mp hf
    obtain ⟨d, rfl, hex⟩ :=
      ih n t' hmem (nodupNamesL_mem cs n t' hn2.2 hmem) g' hg'
    refine ⟨n :: d, rfl, ?_⟩
    have hfind : cs.find? (fun c => c.1 = n) = some (n, t') :=
      find?_of_nodup_names cs n t' (of_decide_eq_true hn2.1) hmem
    simpa [goModExists, goModContentAt, DirTree.lookup, DirTree.children, hfind]
      using hex

theorem walkFiles_complete : ∀ (t0 : DirTree) (d : List String),
    goModExists t0 d = true → d ++ ["go.mod"] ∈ walkFiles t0 := by
  refine DirTree.ind _ ?_
  intro g cs ih d hex
  rw [show walkFiles (.node g cs) =
      ((if g.isSome then [(["go.mod"] : List String)] else []) ++ walkFilesL cs) from rfl,
    List.mem_append]
  cases d with
  | nil =>
    left
    have hg : g.isSome = true := by
      simpa [goModExists, goModContentAt, DirTree.lookup, DirTree.goMod] using hex
    simp [hg]
  | cons n d' =>
    right
    simp only [goModExists, goModContentAt, DirTree.lookup, DirTree.children] at hex
    cases hfind : cs.find? (fun c => c.1 = n) with
    | none => rw [hfind] at hex; simp at hex
    | some c =>
      rw [hfind] at hex
      have hcm : c ∈ cs := List.mem_of_find?_eq_some hfind
      have hcn : c.1 = n := by
        have := List.find?_some hfind
        simpa using this
      have hrec : d' ++ ["go.mod"] ∈ walkFiles c.2 :=
        ih c.1 c.2 (by simpa using hcm) d'
          (by simpa [goModExists, goModContentAt] using hex)
      refine (walkFilesL_mem cs _).mpr ⟨c.1, c.2, by simpa using hcm, d' ++ ["go.mod"], hrec, ?_⟩
      rw [hcn]
      rfl

/-! ### Lemmas about the `modules` pipeline -/

theorem collectModFiles_ok (t : DirTree) (cwd : List String) :
    ∀ ds : List GoPath, (∀ d ∈ ds, goModExists t (filepathAbs cwd d) = true) →
      collectModFiles t cwd ds = .ok (ds.map fun d => filepathAbs cwd d ++ ["go.mod"]) := by
  intro ds
  induction ds with
  | nil => intro _; rfl
  | cons d rest ih =>
    intro h
    have hd := h d (List.mem_cons_self d rest)
    rw [collectModFiles, upFrom_of_exists t _ hd,
      ih (fun x hx => h x (List.mem_cons_of_mem d hx))]
    rfl

theorem collectModFiles_error (t : DirTree) (cwd : List String) :
    ∀ ds : List GoPath, (∃ d ∈ ds, upFrom t (filepathAbs cwd d) = none) →
      ∃ d0 ∈ ds, upFrom t (filepathAbs cwd d0) = none ∧
        collectModFiles t cwd ds = .error (noModAboveMsg (filepathAbs cwd d0)) := by
  intro ds
  induction ds with
  | nil => rintro ⟨d, hd, _⟩; cases hd
  | cons d rest ih =>
    intro h
    cases hup : upFrom t (filepathAbs cwd d) with
    | none =>
      refine ⟨d, List.mem_cons_self d rest, hup, ?_⟩
      rw [collectModFiles, hup]
    | some m =>
      obtain ⟨d1, hd1, hn⟩ := h
      have hd1r : d1 ∈ rest := by
        rcases List.mem_cons.mp hd1 with rfl | hr
        · rw [hup] at hn; cases hn
        · exact hr
      obtain ⟨d0, hd0, hn0, hcol⟩ := ih ⟨d1, hd1r, hn⟩
      refine ⟨d0, List.mem_cons_of_mem d hd0, hn0, ?_⟩
      rw [collectModFiles, hup, hcol]
      rfl

theorem readModule_ok_iff (t : DirTree) (f : List String) (m : String) :
    readModule t f = .ok m ↔ nameAtFile t f = some m := by
  unfold readModule nameAtFile
  cases hc : fileAt t f with
  | none => simp
  | some c =>
    cases he : extractModuleName c with
    | none => simp [he]
    | some m' => simp [he]

theorem readOk_iff (t : DirTree) (f : List String) :
    readOk t f = true ↔ ∃ m, readModule t f = .ok m := by
  unfold readOk
  cases h : readModule t f with
  | ok m => simp [h]
  | error e => simp

theorem readModulesList_ok (t : DirTree) :
    ∀ fs : List (List String), (∀ f ∈ fs, readOk t f = true) →
      ∃ ns, readModulesList t fs = .ok ns ∧
        ∀ m, m ∈ ns ↔ ∃ f ∈ fs, readModule t f = .ok m := by
  intro fs
  induction fs with
  | nil =>
    intro _
    exact ⟨[], rfl, by simp⟩
  | cons f rest ih =>
    intro h
    obtain ⟨m0, hm0⟩ := (readOk_iff t f).mp (h f (List.mem_cons_self f rest))
    obtain ⟨ns, hns, hmem⟩ := ih fun x hx => h x (List.mem_cons_of_mem f hx)
    refine ⟨m0 :: ns, ?_, ?_⟩
    · rw [readModulesList, hm0, hns]
      rfl
    · intro m
      simp only [List.mem_cons, hmem]
      constructor
      · rintro (rfl | ⟨g, hg, hgm⟩)
        · exact ⟨f, Or.inl rfl, hm0⟩
        · exact ⟨g, Or.inr hg, hgm⟩
      · rintro ⟨g, rfl | hg, hgm⟩
        · rw [hm0] at hgm
          exact Or.inl (by cases hgm; rfl)
        · exact Or.inr ⟨g, hg, hgm⟩

theorem readModulesList_error (t : DirTree) :
    ∀ (fs : List (List String)) (f : List String) (e : String), f ∈ fs →
      readModule t f = .error e → ∃ e', readModulesList t fs = .error e' := by
  intro fs
  induction fs with
  | nil => intro f e hf; cases hf
  | cons g rest ih =>
    intro f e hf he
    cases hg : readModule t g with
    | error e2 =>
      refine ⟨e2, ?_⟩
      rw [readModulesList, hg]
    | ok m =>
      have hfr : f ∈ rest := by
        rcases List.mem_cons.mp hf with rfl | hr
        · rw [hg] at he; cases he
        · exact hr
      obtain ⟨e', he'⟩ := ih f e hfr he
      refine ⟨e', ?_⟩
      rw [readModulesList, hg, he']
      rfl

theorem moduleMatchAt_ne_nil (cs cap : List Char) (h : moduleMatchAt cs = some cap) :
    cap ≠ [] := by
  unfold moduleMatchAt at h
  by_cases hp : ("module ".toList).isPrefixOf cs
  · rw [if_pos hp] at h
    by_cases hc : (cs.drop 7).takeWhile (fun c => c ≠ '\n') = []
    · simp only [hc, if_pos] at h
      cases h
    · simp only [hc, if_neg, if_false] at h
      cases h
      exact hc
  · rw [if_neg hp] at h
    cases h

theorem findFirst_ne_nil : ∀ cs cap : List Char,
    findFirstModuleMatch cs = some cap → cap ≠ [] := by
  intro cs
  induction cs with
  | nil => intro cap h; cases h
  | cons c rest ih =>
    intro cap h
    rw [findFirstModuleMatch] at h
    cases hm : moduleMatchAt (c :: rest) with
    | some cap2 =>
      rw [hm] at h
      cases h
      exact moduleMatchAt_ne_nil _ _ hm
    | none =>
      rw [hm] at h
      exact ih cap h

theorem readModule_ok_ne_empty (t : DirTree) (f : List String) (m : String)
    (h : readModule t f = .ok m) : m ≠ "" := by
  unfold readModule at h
  cases hc : fileAt t f with
  | none => rw [hc] at h; cases h
  | some c =>
    rw [hc] at h
    simp only [] at h
    cases he : extractModuleName c with
    | none =>
      simp only [he] at h
      cases h
    | some m' =>
      simp only [he] at h
      cases h
      unfold extractModuleName at he
      cases hff : findFirstModuleMatch c.toList with
      | none => rw [hff] at he; cases he
      | some cap =>
        rw [hff] at he
        have hcap := findFirst_ne_nil _ _ hff
        cases he
        intro hemp
        apply hcap
        have hemp2 : String.mk cap = "" := hemp
        have hdata := congrArg String.data hemp2
        simpa using hdata

theorem fileAt_concat (t : DirTree) (p : List String) :
    fileAt t (p ++ ["go.mod"]) = goModContentAt t p := by
  unfold fileAt
  rw [List.getLast?_concat, List.dropLast_concat]
  rfl

theorem collect_on_manifest_dirs (t : DirTree) (cwd : List String)
    (hnd : nodupNames t = true) (modFiles : List GoPath)
    (hmf : ∀ g ∈ modFiles,
      (∃ f ∈ walkFiles (subtreeAt t cwd), g = .rel f) ∨
      (∃ q, g = .abs (q ++ ["go.mod"]) ∧ goModExists t q = true)) :
    collectModFiles t cwd (modFiles.map goPathDir) =
      .ok (modFiles.map (filepathAbs cwd)) := by
  have habs : ∀ g ∈ modFiles,
      filepathAbs cwd (goPathDir g) ++ ["go.mod"] = filepathAbs cwd g ∧
      goModExists t (filepathAbs cwd (goPathDir g)) = true := by
    intro g hg
    rcases hmf g hg with ⟨f, hf, rfl⟩ | ⟨q, rfl, hq⟩
    · obtain ⟨e, rfl, hex⟩ :=
        walkFiles_sound (subtreeAt t cwd) (nodupNames_subtreeAt t cwd hnd) f hf
      constructor
      · show (cwd ++ (e ++ ["go.mod"]).dropLast) ++ ["go.mod"] = cwd ++ (e ++ ["go.mod"])
        rw [List.dropLast_concat, List.append_assoc]
      · show goModExists t (cwd ++ (e ++ ["go.mod"]).dropLast) = true
        rw [List.dropLast_concat, goModExists_append]
        exact hex
    · constructor
      · show (q ++ ["go.mod"]).dropLast ++ ["go.mod"] = q ++ ["go.mod"]
        rw [List.dropLast_concat]
      · show goModExists t (q ++ ["go.mod"]).dropLast = true
        rw [List.dropLast_concat]
        exact hq
  have hex : ∀ d ∈ modFiles.map goPathDir, goModExists t (filepathAbs cwd d) = true := by
    intro d hd
    obtain ⟨g, hg, rfl⟩ := List.mem_map.mp hd
    exact (habs g hg).2
  rw [collectModFiles_ok t cwd _ hex, List.map_map]
  congr 1
  refine List.map_congr_left ?_
  intro g hg
  exact (habs g hg).1

theorem names_from_files (t : DirTree) (fs : List (List String))
    (hro : ∀ x ∈ fs, readOk t x = true) :
    ∃ ns, readModulesList t fs = .ok ns ∧
      ∀ m, m ∈ ns.dedup ↔ ∃ f ∈ fs, nameAtFile t f = some m := by
  obtain ⟨ns, hns, hmem⟩ := readModulesList_ok t fs hro
  refine ⟨ns, hns, ?_⟩
  intro m
  rw [List.mem_dedup, hmem m]
  constructor
  · rintro ⟨f, hf, hok⟩
    exact ⟨f, hf, (readModule_ok_iff t f m).mp hok⟩
  · rintro ⟨f, hf, hname⟩
    exact ⟨f, hf, (readModule_ok_iff t f m).mpr hname⟩

/-- C5: invoked with zero directory arguments, the `modules` operation —
both the dispatcher pipeline (`nmodModulesNoArgs`) and the sibling
snapshot's `allModules` — reports exactly the deduplicated union of the
module name of the manifest found by upward search from the working
directory (when one exists; its absence is not an error in this mode) and
the module names of every manifest found by the recursive downward walk
below the working directory.  Hypotheses: sibling directory names are
unique (true of every real filesystem) and every manifest in scope is
readable with a declaration. -/
theorem modules_no_args_reports_union (t : DirTree) (cwd : List String)
    (hnd : nodupNames t = true)
    (hread : ∀ f ∈ (upFrom t cwd).toList ++
        ((walkFiles (subtreeAt t cwd)).map fun g => cwd ++ g), readOk t f = true) :
    (∃ out, nmodModulesNoArgs t cwd = .ok out ∧ out.Nodup ∧
      ∀ m, m ∈ out ↔
        ((∃ f, upFrom t cwd = some f ∧ nameAtFile t f = some m) ∨
         ∃ d, goModExists (subtreeAt t cwd) d = true ∧
           nameAtFile t ((cwd ++ d) ++ ["go.mod"]) = some m)) ∧
    (∃ out, allModules t cwd = .ok out ∧ out.Nodup ∧
      ∀ m, m ∈ out ↔
        ((∃ f, upFrom t cwd = some f ∧ nameAtFile t f = some m) ∨
         ∃ d, goModExists (subtreeAt t cwd) d = true ∧
           nameAtFile t ((cwd ++ d) ++ ["go.mod"]) = some m)) := by
  have hsound := walkFiles_sound (subtreeAt t cwd) (nodupNames_subtreeAt t cwd hnd)
  have hsu : searchUpwardsForModule t cwd (.rel []) = upFrom t cwd := by
    show upFrom t (cwd ++ []) = upFrom t cwd
    rw [List.append_nil]
  cases hu : upFrom t cwd with
  | none =>
    rw [hu] at hread
    simp only [Option.toList, List.nil_append] at hread
    have hiff : ∀ (L : List (List String)),
        (∀ x, x ∈ L ↔ ∃ f ∈ walkFiles (subtreeAt t cwd), x = cwd ++ f) →
        ∀ m, (∃ f ∈ L, nameAtFile t f = some m) ↔
          ((∃ f, (none : Option (List String)) = some f ∧ nameAtFile t f = some m) ∨
           ∃ d, goModExists (subtreeAt t cwd) d = true ∧
             nameAtFile t ((cwd ++ d) ++ ["go.mod"]) = some m) := by
      intro L hchar m
      constructor
      · rintro ⟨x, hx, hname⟩
        obtain ⟨f0, hf0, rfl⟩ := (hchar x).mp hx
        obtain ⟨e, rfl, hex⟩ := hsound f0 hf0
        rw [← List.append_assoc] at hname
        exact Or.inr ⟨e, hex, hname⟩
      · rintro (⟨f, hf, _⟩ | ⟨d, hex, hname⟩)
        · cases hf
        · refine ⟨cwd ++ (d ++ ["go.mod"]),
            (hchar _).mpr ⟨_, walkFiles_complete _ d hex, rfl⟩, ?_⟩
          rw [← List.append_assoc]
          exact hname
    have hroL : ∀ (L : List (List String)),
        (∀ x, x ∈ L ↔ ∃ f ∈ walkFiles (subtreeAt t cwd), x = cwd ++ f) →
        ∀ x ∈ L, readOk t x = true := by
      intro L hchar x hx
      obtain ⟨f, hf, rfl⟩ := (hchar x).mp hx
      exact hread _ (List.mem_map.mpr ⟨f, hf, rfl⟩)
    constructor
    · -- the dispatcher pipeline
      have hmf : ∀ g ∈ ((walkFiles (subtreeAt t cwd)).dedup).map GoPath.rel,
          (∃ f ∈ walkFiles (subtreeAt t cwd), g = .rel f) ∨
          (∃ q, g = .abs (q ++ ["go.mod"]) ∧ goModExists t q = true) := by
        intro g hg
        obtain ⟨f, hf, rfl⟩ := List.mem_map.mp hg
        exact Or.inl ⟨f, List.mem_dedup.mp hf, rfl⟩
      have hcol := collect_on_manifest_dirs t cwd hnd _ hmf
      have hchar : ∀ x, x ∈ ((((walkFiles (subtreeAt t cwd)).dedup).map GoPath.rel).map
            (filepathAbs cwd)).dedup ↔
          ∃ f ∈ walkFiles (subtreeAt t cwd), x = cwd ++ f := by
        intro x
        rw [List.mem_dedup, List.map_map]
        constructor
        · intro hx
          obtain ⟨f, hf, hfe⟩ := List.mem_map.mp hx
          exact ⟨f, List.mem_dedup.mp hf, hfe.symm⟩
        · rintro ⟨f, hf, rfl⟩
          exact List.mem_map.mpr ⟨f, List.mem_dedup.mpr hf, rfl⟩
      obtain ⟨ns, hns, hnsmem⟩ := names_from_files t _ (hroL _ hchar)
      refine ⟨ns.dedup, ?_, List.nodup_dedup ns,
        fun m => (hnsmem m).trans (hiff _ hchar m)⟩
      unfold nmodModulesNoArgs modFilesRecursivelyDown modules
      simp only [hsu, hu, hcol, hns]
    · -- allModules
      have hchar : ∀ x, x ∈ (((walkFiles (subtreeAt t cwd)).map GoPath.rel).dedup).map
            (filepathAbs cwd) ↔
          ∃ f ∈ walkFiles (subtreeAt t cwd), x = cwd ++ f := by
        intro x
        constructor
        · intro hx
          obtain ⟨g, hg, hge⟩ := List.mem_map.mp hx
          obtain ⟨f, hf, rfl⟩ := List.mem_map.mp (List.mem_dedup.mp hg)
          exact ⟨f, hf, hge.symm⟩
        · rintro ⟨f, hf, rfl⟩
          exact List.mem_map.mpr ⟨.rel f,
            List.mem_dedup.mpr (List.mem_map.mpr ⟨f, hf, rfl⟩), rfl⟩
      obtain ⟨ns, hns, hnsmem⟩ := names_from_files t _ (hroL _ hchar)
      refine ⟨ns.dedup, ?_, List.nodup_dedup ns,
        fun m => (hnsmem m).trans (hiff _ hchar m)⟩
      unfold allModules
      simp only [hsu, hu, List.nil_append, hns]
  | some fUp =>
    obtain ⟨q, rfl, hq⟩ := upFrom_shape t cwd fUp hu
    rw [hu] at hread
    simp only [Option.toList, List.cons_append, List.nil_append, List.mem_cons] at hread
    have hiff : ∀ (L : List (List String)),
        (∀ x, x ∈ L ↔
          ((∃ f ∈ walkFiles (subtreeAt t cwd), x = cwd ++ f) ∨ x = q ++ ["go.mod"])) →
        ∀ m, (∃ f ∈ L, nameAtFile t f = some m) ↔
          ((∃ f, some (q ++ ["go.mod"]) = some f ∧ nameAtFile t f = some m) ∨
           ∃ d, goModExists (subtreeAt t cwd) d = true ∧
             nameAtFile t ((cwd ++ d) ++ ["go.mod"]) = some m) := by
      intro L hchar m
      constructor
      · rintro ⟨x, hx, hname⟩
        rcases (hchar x).mp hx with ⟨f0, hf0, rfl⟩ | rfl
        · obtain ⟨e, rfl, hex⟩ := hsound f0 hf0
          rw [← List.append_assoc] at hname
          exact Or.inr ⟨e, hex, hname⟩
        · exact Or.inl ⟨q ++ ["go.mod"], rfl, hname⟩
      · rintro (⟨f, hf, hname⟩ | ⟨d, hex, hname⟩)
        · cases hf
          exact ⟨q ++ ["go.mod"], (hchar _).mpr (Or.inr rfl), hname⟩
        · refine ⟨cwd ++ (d ++ ["go.mod"]),
            (hchar _).mpr (Or.inl ⟨_, walkFiles_complete _ d hex, rfl⟩), ?_⟩
          rw [← List.append_assoc]
          exact hname
    have hroL : ∀ (L : List (List String)),
        (∀ x, x ∈ L ↔
          ((∃ f ∈ walkFiles (subtreeAt t cwd), x = cwd ++ f) ∨ x = q ++ ["go.mod"])) →
        ∀ x ∈ L, readOk t x = true := by
      intro L hchar x hx
      rcases (hchar x).mp hx with ⟨f, hf, rfl⟩ | rfl
      · exact hread _ (Or.inr (List.mem_map.mpr ⟨f, hf, rfl⟩))
      · exact hread _ (Or.inl rfl)
    constructor
    · -- the dispatcher pipeline
      have hmf : ∀ g ∈ ((walkFiles (subtreeAt t cwd)).dedup).map GoPath.rel ++
            [GoPath.abs (q ++ ["go.mod"])],
          (∃ f ∈ walkFiles (subtreeAt t cwd), g = .rel f) ∨
          (∃ q2, g = .abs (q2 ++ ["go.mod"]) ∧ goModExists t q2 = true) := by
        intro g hg
        rcases List.mem_append.mp hg with hg | hg
        · obtain ⟨f, hf, rfl⟩ := List.mem_map.mp hg
          exact Or.inl ⟨f, List.mem_dedup.mp hf, rfl⟩
        · rcases List.mem_singleton.mp hg with rfl
          exact Or.inr ⟨q, rfl, hq⟩
      have hcol := collect_on_manifest_dirs t cwd hnd _ hmf
      have hchar : ∀ x, x ∈ ((((walkFiles (subtreeAt t cwd)).dedup).map GoPath.rel ++
            [GoPath.abs (q ++ ["go.mod"])]).map (filepathAbs cwd)).dedup ↔
          ((∃ f ∈ walkFiles (subtreeAt t cwd), x = cwd ++ f) ∨ x = q ++ ["go.mod"]) := by
        intro x
        rw [List.mem_dedup, List.map_append, List.mem_append, List.map_map]
        constructor
        · rintro (hx | hx)
          · obtain ⟨f, hf, hfe⟩ := List.mem_map.mp hx
            exact Or.inl ⟨f, List.mem_dedup.mp hf, hfe.symm⟩
          · rcases List.mem_singleton.mp hx with rfl
            exact Or.inr rfl
        · rintro (⟨f, hf, rfl⟩ | rfl)
          · exact Or.inl (List.mem_map.mpr ⟨f, List.mem_dedup.mpr hf, rfl⟩)
          · exact Or.inr (List.mem_singleton.mpr rfl)
      obtain ⟨ns, hns, hnsmem⟩ := names_from_files t _ (hroL _ hchar)
      refine ⟨ns.dedup, ?_, List.nodup_dedup ns,
        fun m => (hnsmem m).trans (hiff _ hchar m)⟩
      unfold nmodModulesNoArgs modFilesRecursivelyDown modules
      simp only [hsu, hu, hcol, hns]
    · -- allModules
      have hchar : ∀ x, x ∈ (([GoPath.abs (q ++ ["go.mod"])] ++
            (walkFiles (subtreeAt t cwd)).map GoPath.rel).dedup).map (filepathAbs cwd) ↔
          ((∃ f ∈ walkFiles (subtreeAt t cwd), x = cwd ++ f) ∨ x = q ++ ["go.mod"]) := by
        intro x
        constructor
        · intro hx
          obtain ⟨g, hg, hge⟩ := List.mem_map.mp hx
          rcases List.mem_append.mp (List.mem_dedup.mp hg) with hg2 | hg2
          · rcases List.mem_singleton.mp hg2 with rfl
            exact Or.inr hge.symm
          · obtain ⟨f, hf, rfl⟩ := List.mem_map.mp hg2
            exact Or.inl ⟨f, hf, hge.symm⟩
        · rintro (⟨f, hf, rfl⟩ | rfl)
          · exact List.mem_map.mpr ⟨.rel f, List.mem_dedup.mpr
              (List.mem_append.mpr (Or.inr (List.mem_map.mpr ⟨f, hf, rfl⟩))), rfl⟩
          · exact List.mem_map.mpr ⟨.abs (q ++ ["go.mod"]), List.mem_dedup.mpr
              (List.mem_append.mpr (Or.inl (List.mem_singleton.mpr rfl))), rfl⟩
      obtain ⟨ns, hns, hnsmem⟩ := names_from_files t _ (hroL _ hchar)
      refine ⟨ns.dedup, ?_, List.nodup_dedup ns,
        fun m => (hnsmem m).trans (hiff _ hchar m)⟩
      unfold allModules
      simp only [hsu, hu, hns]

theorem modules_no_args_reports_union_witness :
    (nodupNames exampleTree = true ∧
      ∀ f ∈ (upFrom exampleTree ["repo"]).toList ++
        ((walkFiles (subtreeAt exampleTree ["repo"])).map fun g => ["repo"] ++ g),
        readOk exampleTree f = true) ∧
    (∃ out, nmodModulesNoArgs exampleTree ["repo"] = .ok out ∧ out.Nodup ∧
      ∀ m, m ∈ out ↔
        ((∃ f, upFrom exampleTree ["repo"] = some f ∧ nameAtFile exampleTree f = some m) ∨
         ∃ d, goModExists (subtreeAt exampleTree ["repo"]) d = true ∧
           nameAtFile exampleTree ((["repo"] ++ d) ++ ["go.mod"]) = some m)) ∧
    (∃ out, allModules exampleTree ["repo"] = .ok out ∧ out.Nodup ∧
      ∀ m, m ∈ out ↔
        ((∃ f, upFrom exampleTree ["repo"] = some f ∧ nameAtFile exampleTree f = some m) ∨
         ∃ d, goModExists (subtreeAt exampleTree ["repo"]) d = true ∧
           nameAtFile exampleTree ((["repo"] ++ d) ++ ["go.mod"]) = some m)) := by
  have h1 : nodupNames exampleTree = true := by decide
  have h2 : ∀ f ∈ (upFrom exampleTree ["repo"]).toList ++
      ((walkFiles (subtreeAt exampleTree ["repo"])).map fun g => ["repo"] ++ g),
      readOk exampleTree f = true := by
    simp only [upFrom_eq_fuel]
    decide
  obtain ⟨hc1, hc2⟩ := modules_no_args_reports_union exampleTree ["repo"] h1 h2
  exact ⟨⟨h1, h2⟩, hc1, hc2⟩

/-! ### Claims C6, C7: hard errors of the `modules` command -/

/-- C6: when `modules` is given explicit directory arguments and the upward
search from one of them finds no manifest anywhere up to the filesystem
root, the whole command fails with the hard error naming that offending
directory (`"<dir> doesn't have a go.mod, nor do any of the directories
above it"`), rather than printing anything. -/
theorem modules_no_manifest_above_hard_error (t : DirTree) (cwd : List String)
    (ds : List GoPath) (h : ∃ d ∈ ds, upFrom t (filepathAbs cwd d) = none) :
    ∃ d0 ∈ ds, upFrom t (filepathAbs cwd d0) = none ∧
      modules t cwd ds = .error (noModAboveMsg (filepathAbs cwd d0)) := by
  obtain ⟨d0, hd0, hup, hcol⟩ := collectModFiles_error t cwd ds h
  refine ⟨d0, hd0, hup, ?_⟩
  unfold modules
  rw [hcol]

theorem modules_no_manifest_above_hard_error_witness :
    (∃ d ∈ [GoPath.rel ["missing-tree"]], upFrom bareTree (filepathAbs [] d) = none) ∧
    ∃ d0 ∈ [GoPath.rel ["missing-tree"]], upFrom bareTree (filepathAbs [] d0) = none ∧
      modules bareTree [] [GoPath.rel ["missing-tree"]] =
        .error (noModAboveMsg (filepathAbs [] d0)) := by
  have h : ∃ d ∈ [GoPath.rel ["missing-tree"]], upFrom bareTree (filepathAbs [] d) = none := by
    refine ⟨.rel ["missing-tree"], List.mem_singleton.mpr rfl, ?_⟩
    rw [upFrom_eq_fuel]
    decide
  exact ⟨h, modules_no_manifest_above_hard_error bareTree [] _ h⟩

/-- C7: a collected manifest that exists but contains no module
declaration makes `readModule` fail with the no-declaration error — an
error, never an empty name: every successful read returns a nonempty
name — and the whole `modules` command aborts with an error, printing no
module output at all (output exists only on the `.ok` branch, produced
after every read has succeeded). -/
theorem manifest_without_declaration_aborts (t : DirTree) (cwd : List String)
    (ds : List GoPath) (fs : List (List String)) (f : List String)
    (hc : collectModFiles t cwd ds = .ok fs) (hf : f ∈ fs)
    (hex : (fileAt t f).isSome = true) (hnone : nameAtFile t f = none) :
    readModule t f = .error (noDeclMsg f) ∧
    (∀ g m, readModule t g = .ok m → m ≠ "") ∧
    ∃ e, modules t cwd ds = .error e := by
  obtain ⟨c, hcc⟩ := Option.isSome_iff_exists.mp hex
  have hext : extractModuleName c = none := by
    unfold nameAtFile at hnone
    rw [hcc] at hnone
    simpa using hnone
  have hrm : readModule t f = .error (noDeclMsg f) := by
    unfold readModule
    rw [hcc]
    simp only [hext]
  refine ⟨hrm, fun g m => readModule_ok_ne_empty t g m, ?_⟩
  obtain ⟨e', he'⟩ :=
    readModulesList_error t fs.dedup f (noDeclMsg f) (List.mem_dedup.mpr hf) hrm
  refine ⟨e', ?_⟩
  unfold modules
  rw [hc]
  simp only [he']

theorem manifest_without_declaration_aborts_witness :
    (collectModFiles noDeclTree [] [GoPath.rel ["repo"]] = .ok [["repo", "go.mod"]] ∧
      ["repo", "go.mod"] ∈ [[("repo" : String), "go.mod"]] ∧
      (fileAt noDeclTree ["repo", "go.mod"]).isSome = true ∧
      nameAtFile noDeclTree ["repo", "go.mod"] = none) ∧
    readModule noDeclTree ["repo", "go.mod"] = .error (noDeclMsg ["repo", "go.mod"]) ∧
    (∀ g m, readModule noDeclTree g = .ok m → m ≠ "") ∧
    ∃ e, modules noDeclTree [] [GoPath.rel ["repo"]] = .error e := by
  have hc : collectModFiles noDeclTree [] [GoPath.rel ["repo"]] =
      .ok [["repo", "go.mod"]] := by
    simp only [collectModFiles, upFrom_eq_fuel]
    decide
  have hf : (["repo", "go.mod"] : List String) ∈ [[("repo" : String), "go.mod"]] := by
    decide
  have hex : (fileAt noDeclTree ["repo", "go.mod"]).isSome = true := by decide
  have hnone : nameAtFile noDeclTree ["repo", "go.mod"] = none := by decide
  exact ⟨⟨hc, hf, hex, hnone⟩,
    manifest_without_declaration_aborts noDeclTree [] _ _ _ hc hf hex hnone⟩

/-! ### Claim C10: names are deduplicated before printing -/

/-- C10: every successful run of the no-argument `modules` operation
prints each distinct module name exactly once, even when one physical
manifest enters the collected set twice — absolutely spelled by the
upward search and relatively by the walk — because deduplication is
applied to the extracted names just before printing. -/
theorem allModules_prints_each_name_once (t : DirTree) (cwd : List String)
    (out : List String) (h : allModules t cwd = .ok out) : out.Nodup := by
  simp only [allModules] at h
  split at h
  · cases h
  · cases h
    exact List.nodup_dedup _

theorem allModules_prints_each_name_once_witness :
    allModules exampleTree ["repo"] = .ok ["root.example", "child.example"] ∧
    (["root.example", "child.example"] : List String).Nodup := by
  have he : allModules exampleTree ["repo"] = .ok ["root.example", "child.example"] := by
    simp only [allModules, searchUpwardsForModule, upFrom_eq_fuel]
    decide
  exact ⟨he, allModules_prints_each_name_once exampleTree ["repo"] _ he⟩

/-! ### Claims C1, C2: `rootdirs` and `dirs` against their specification -/

/-- C1: the code refutes the claim.  `rootdirs` never resolves module
names to the manifests declaring them: it uses each argument directly as
a path and searches upward from it, so from `/repo` the argument
`child.example` (declared by `/repo/a/b/go.mod`) yields `/repo` — the
directory of the first manifest above the working directory — not
`/repo/a/b`; and an argument matching no manifest anywhere is not a hard
error: the search's empty result is kept and printed as `Dir("") = "."`. -/
theorem rootdirs_resolves_paths_not_names :
    (rootdirs exampleTree ["repo"] [.rel ["child.example"]] = ["/repo"] ∧
      "/repo/a/b" ∉ rootdirs exampleTree ["repo"] [.rel ["child.example"]]) ∧
    rootdirs bareTree ["missing-tree"] [.rel ["child.example"]] = ["."] := by
  refine ⟨⟨?_, ?_⟩, ?_⟩ <;>
    · simp only [rootdirs, searchUpwardsForModule, upFrom_eq_fuel]
      decide

/-- C2: the code refutes the claim: `dirs` is unimplemented
(`TODO(deklerk): implement`) — for every argument list it returns
success having printed no directory at all, so no module's root directory
or nested directories are ever reported. -/
theorem dirs_unimplemented_stub :
    dirs ["root.example"] = .ok [] ∧ ∀ args : List String, dirs args = .ok [] :=
  ⟨rfl, fun _ => rfl⟩
